import Mathlib

/-!
# Verification of the nolik metadata-envelope protocol

Shallow embedding of the nolik repository's core:

* `src/cli/src/cypher.rs` — the byte-level box cypher and the per-entry
  message cypher (`Cypher for Message` / `Cypher for MessageEntry` /
  `BytesCypher for [u8]`);
* `src/client/src/metadata.rs` — envelope construction
  (`MessageMetadata::new_encrypted`), the commitment hash
  (`compute_root_hash`, `hash_with_nonce`) and the channel scanner
  (`MessageMetadata::decrypt`);
* `src/pallets/nolik/src/lib.rs` — the on-ledger validation
  (`Pallet::check_message`).

The NaCl box primitive (crypto_box / sodiumoxide) is modelled symbolically:
a ciphertext records its payload, commits to the nonce it was sealed under,
and authenticates the Diffie-Hellman shared secret of the key pair used, so
that opening succeeds exactly for the matching nonce and key pair.  The
Blake2s-256 digest is modelled as an injective function of the accumulated
byte stream (the collision-free idealisation of the real hash).
-/

set_option maxRecDepth 4000

namespace Nolik

/-- Byte strings, modelled as lists of naturals. -/
abbrev Bytes := List Nat

/-- The fixed width of a `SalsaNonce` (XSalsa20 nonce, 24 bytes). -/
def nonceLen : Nat := 24

/-- Curve25519 keys are modelled as abstract atoms; public-key derivation
(`SecretKey::public_key`) is the identity on atoms, so a key pair is `(k, k)`.
The model carries no secrecy, only the agreement equations of the scheme. -/
def publicKeyOf (sk : Nat) : Nat := sk

/-- `PublicKey::as_bytes`: the byte form of a key atom. -/
def pkBytes (pk : Nat) : Bytes := [pk]

/-- The X25519 shared secret of a public and a secret key, modelled as the
unordered pair of the two atoms: it is symmetric in the two keys, and two
key pairs agree on it exactly when they involve the same atoms. -/
def dhShared (pk sk : Nat) : Nat × Nat := (min pk sk, max pk sk)

/-- Model of NaCl box sealing (`box_::seal` / `crypto_box` encryption): the
ciphertext determines the payload, commits to the nonce it was sealed under,
and records the shared secret of (receiver public key, sender secret key). -/
def boxSeal (data nonce : Bytes) (pk sk : Nat) : Bytes :=
  (dhShared pk sk).1 :: (dhShared pk sk).2 :: nonce.length :: (nonce ++ data)

/-- Model of NaCl box opening (`box_::open` / `crypto_box` decryption):
succeeds exactly on a ciphertext sealed under the same nonce whose recorded
shared secret matches the one of (sender public key, receiver secret key). -/
def boxOpen (data nonce : Bytes) (pk sk : Nat) : Option Bytes :=
  match data with
  | s1 :: s2 :: ln :: rest =>
    if (s1, s2) = dhShared pk sk ∧ ln = nonce.length ∧ rest.take nonce.length = nonce then
      some (rest.drop nonce.length)
    else none
  | _ => none

/-- `CypherError` from `src/cli/src/cypher.rs` (the `nolik_cypher` crate used
by `metadata.rs` exposes the same three kinds, per the spec §7). -/
inductive CypherError where
  | DecryptionFailed (pk : Nat)
  | InvalidNonce (nonce : Bytes)
  | InvalidPubkey (pk : Bytes)
  deriving DecidableEq

/-- `impl BytesCypher for [u8]`, `encrypt` (src/cli/src/cypher.rs): plain
`box_::seal`, infallible. -/
def Bytes.encrypt (self nonce : Bytes) (pk sk : Nat) : Bytes :=
  boxSeal self nonce pk sk

/-- `impl BytesCypher for [u8]`, `decrypt` (src/cli/src/cypher.rs):
`box_::open`, mapping an authentication failure to `DecryptionFailed(pk)`. -/
def Bytes.decrypt (self nonce : Bytes) (pk sk : Nat) : Except CypherError Bytes :=
  match boxOpen self nonce pk sk with
  | some plain => .ok plain
  | none => .error (.DecryptionFailed pk)

/-- Modelled from the spec: the shape of `crate::messages::MessageEntry`
(`messages.rs` is not under `src/`); per §3 an entry is a (key, value, kind)
triple with opaque byte payloads for key and value and a small closed tag
for kind (modelled as a natural). -/
structure MessageEntry where
  key : Bytes
  value : Bytes
  kind : Nat
  deriving DecidableEq

/-- Modelled from the spec: `crate::messages::Message`, an ordered sequence
of entries (spec §3). -/
structure Message where
  entries : List MessageEntry
  deriving DecidableEq

/-- `collect::<Result<_, _>>()`: collect a sequence of results, stopping at
the first error. -/
def collectE {ε α : Type} : List (Except ε α) → Except ε (List α)
  | [] => .ok []
  | .error e :: _ => .error e
  | .ok a :: rest =>
    match collectE rest with
    | .error e => .error e
    | .ok tail => .ok (a :: tail)

/-- `impl Cypher for MessageEntry`, `encrypt`: seal key and value under the
same nonce and key pair, keep the kind tag in the clear. -/
def MessageEntry.encrypt (self : MessageEntry) (nonce : Bytes) (pk sk : Nat) : MessageEntry :=
  ⟨Bytes.encrypt self.key nonce pk sk, Bytes.encrypt self.value nonce pk sk, self.kind⟩

/-- `impl Cypher for MessageEntry`, `decrypt`: open key then value,
propagating the first failure (the `?` operator). -/
def MessageEntry.decrypt (self : MessageEntry) (nonce : Bytes) (pk sk : Nat) :
    Except CypherError MessageEntry :=
  match Bytes.decrypt self.key nonce pk sk with
  | .error e => .error e
  | .ok k =>
    match Bytes.decrypt self.value nonce pk sk with
    | .error e => .error e
    | .ok v => .ok ⟨k, v, self.kind⟩

/-- `impl Cypher for Message`, `encrypt`: entry-wise encryption, preserving
order and count. -/
def Message.encrypt (self : Message) (nonce : Bytes) (pk sk : Nat) : Message :=
  ⟨self.entries.map (fun e => e.encrypt nonce pk sk)⟩

/-- `impl Cypher for Message`, `decrypt`: entry-wise decryption collected
into a `Result`, failing as a whole on the first entry that fails. -/
def Message.decrypt (self : Message) (nonce : Bytes) (pk sk : Nat) :
    Except CypherError Message :=
  match collectE (self.entries.map (fun e => e.decrypt nonce pk sk)) with
  | .error e => .error e
  | .ok es => .ok ⟨es⟩

/-- Modelled from the spec: the `nolik_cypher` crate's `BytesCypher`
encryption used by `metadata.rs` is not under `src/`; per §4.1 sealing
always succeeds for well-formed keys and nonces, and a nonce of the wrong
length fails with `InvalidNonce` before any cryptographic operation (keys
are typed fixed-size values and cannot be malformed in this model). -/
def nolikEncrypt (data nonce : Bytes) (pk sk : Nat) : Except CypherError Bytes :=
  if nonce.length = nonceLen then .ok (boxSeal data nonce pk sk)
  else .error (.InvalidNonce nonce)

/-- Modelled from the spec: the `nolik_cypher` crate's `BytesCypher`
decryption (see `nolikEncrypt`); an authentication failure yields
`DecryptionFailed(pk)`, a malformed nonce `InvalidNonce` (spec §4.1). -/
def nolikDecrypt (data nonce : Bytes) (pk sk : Nat) : Except CypherError Bytes :=
  if nonce.length = nonceLen then
    match boxOpen data nonce pk sk with
    | some plain => .ok plain
    | none => .error (.DecryptionFailed pk)
  else .error (.InvalidNonce nonce)

/-- `Channel` (pallet type, used by `metadata.rs`): the encrypted secret
nonce and the participant list, each entry individually sealed. -/
structure Channel where
  nonce : Bytes
  parties : List Bytes
  deriving DecidableEq

/-- `MessageMetadata` (pallet type, used by `metadata.rs`): public nonce,
one-time broker (relay) public key, commitment hash, and one channel per
participant.  The broker field holds a public key (`[u8; 32]` in the
source), modelled as a key atom. -/
structure MessageMetadata where
  nonce : Bytes
  broker : Nat
  hash : Bytes
  channels : List Channel
  deriving DecidableEq

/-- The Blake2s-256 digest, modelled as an injective function of the
accumulated input stream (collision-free idealisation); a hasher state is
the list of bytes fed to it so far, `Update::update` is append, and
`finalize` applies this function. -/
def blake2s (input : Bytes) : Bytes := 0 :: input

/-- `MessageMetadata::hash_with_nonce`: digest of the data followed by the
(secret) nonce. -/
def MessageMetadata.hash_with_nonce (data nonce : Bytes) : Bytes :=
  blake2s (data ++ nonce)

/-- `MessageMetadata::compute_root_hash`: the salted commitment digest over
origin, both nonces, both keys, the recipient list and the message entries
(the entry `kind` tag is ignored by the fold, as in the source). -/
def MessageMetadata.compute_root_hash (origin publicNonce : Bytes) (senderPk brokerPk : Nat)
    (secretNonce : Bytes) (recipients : List Nat) (message : Message) : Bytes :=
  let originHash := hash_with_nonce origin secretNonce
  let publicNonceHash := hash_with_nonce publicNonce secretNonce
  let secretNonceHash := hash_with_nonce secretNonce secretNonce
  let brokerPkHash := hash_with_nonce (pkBytes brokerPk) secretNonce
  let senderPkHash := hash_with_nonce (pkBytes senderPk) secretNonce
  let recipientsHash :=
    blake2s ((recipients.foldl
      (fun st r => st ++ hash_with_nonce (pkBytes r) secretNonce) []) ++ secretNonce)
  let entriesHash :=
    blake2s ((message.entries.foldl
      (fun st e => st ++ hash_with_nonce e.key secretNonce
        ++ hash_with_nonce e.value secretNonce) []) ++ secretNonce)
  blake2s (originHash ++ publicNonceHash ++ secretNonceHash ++ brokerPkHash
    ++ senderPkHash ++ recipientsHash ++ entriesHash)

/-- `MessageMetadata::new_encrypted`: build the envelope.  The secret nonce
and the one-time broker secret key are generated from `OsRng` in the source;
the model passes them explicitly (both are fresh per call, the secret nonce
always of width `nonceLen` by construction of the generator). -/
def MessageMetadata.new_encrypted (origin publicNonce : Bytes) (senderPk : Nat)
    (recipients : List Nat) (message : Message) (secretNonce : Bytes) (brokerSk : Nat) :
    Except CypherError (MessageMetadata × Bytes) :=
  let brokerPk := publicKeyOf brokerSk
  let parties := senderPk :: recipients
  match collectE (parties.map (fun partyPk =>
      match nolikEncrypt secretNonce publicNonce partyPk brokerSk with
      | .error e => .error e
      | .ok encNonce =>
        match collectE (parties.map (fun p =>
            nolikEncrypt (pkBytes p) secretNonce partyPk brokerSk)) with
        | .error e => .error e
        | .ok encParties => .ok (Channel.mk encNonce encParties))) with
  | .error e => .error e
  | .ok encryptedChannels =>
    if publicNonce.length = nonceLen then
      .ok (⟨publicNonce, brokerPk,
            MessageMetadata.compute_root_hash origin publicNonce senderPk brokerPk
              secretNonce recipients message,
            encryptedChannels⟩,
          secretNonce)
    else .error (.InvalidNonce publicNonce)

/-- The channel loop of `MessageMetadata::decrypt`: a channel whose
encrypted secret nonce does not open is skipped (`continue`); for a channel
that opens, every sealed participant entry is opened under the recovered
secret nonce, any failure propagating out of the whole call (the `?`
operator).  In the source the recovered bytes pass through
`SalsaNonce::from_slice`, which insists on the fixed width and halts
otherwise; the model uses the recovered bytes as the nonce directly. -/
def decryptChannels (publicNonce : Bytes) (brokerPk receiverSk : Nat) :
    List Channel → Except CypherError (List Channel)
  | [] => .ok []
  | ch :: rest =>
    match nolikDecrypt ch.nonce publicNonce brokerPk receiverSk with
    | .error _ => decryptChannels publicNonce brokerPk receiverSk rest
    | .ok secretNonce =>
      match collectE (ch.parties.map (fun p =>
          nolikDecrypt p secretNonce brokerPk receiverSk)) with
      | .error e => .error e
      | .ok parties =>
        match decryptChannels publicNonce brokerPk receiverSk rest with
        | .error e => .error e
        | .ok restChannels => .ok (Channel.mk secretNonce parties :: restChannels)

/-- `MessageMetadata::decrypt`: scan all channels with the receiver's secret
key, keeping the successfully opened ones (plaintext secret nonce and
participant list), leaving every other field of the metadata unchanged. -/
def MessageMetadata.decrypt (self : MessageMetadata) (receiverSk : Nat) :
    Except CypherError MessageMetadata :=
  match decryptChannels self.nonce self.broker receiverSk self.channels with
  | .error e => .error e
  | .ok channels => .ok ⟨self.nonce, self.broker, self.hash, channels⟩

/-- The number of attempts `MessageMetadata::decrypt` makes to open an
encrypted secret nonce: this function mirrors the traversal of
`decryptChannels`, counting exactly one `open` attempt per channel visited
(a participant-entry failure aborts the scan, so later channels are never
visited in that case). -/
def decryptAttempts (publicNonce : Bytes) (brokerPk receiverSk : Nat) :
    List Channel → Nat
  | [] => 0
  | ch :: rest =>
    match nolikDecrypt ch.nonce publicNonce brokerPk receiverSk with
    | .error _ => 1 + decryptAttempts publicNonce brokerPk receiverSk rest
    | .ok secretNonce =>
      match collectE (ch.parties.map (fun p =>
          nolikDecrypt p secretNonce brokerPk receiverSk)) with
      | .error _ => 1
      | .ok _ => 1 + decryptAttempts publicNonce brokerPk receiverSk rest

/-- The error kinds of the nolik pallet (`src/pallets/nolik/src/lib.rs`). -/
inductive PalletError where
  | MessageCounterOverflow
  | MessageMalformed
  | MetadataMalformed
  deriving DecidableEq

/-- The channel loop of `Pallet::check_message`: each channel must have a
non-empty nonce, a non-empty participant list of length equal to the number
of channels, and no empty participant entry. -/
def checkChannelsLoop (numChannels : Nat) : List Channel → Except PalletError Unit
  | [] => .ok ()
  | ch :: rest =>
    if ch.nonce.isEmpty || ch.parties.isEmpty || ch.parties.length != numChannels then
      .error .MetadataMalformed
    else if ch.parties.any List.isEmpty then
      .error .MetadataMalformed
    else checkChannelsLoop numChannels rest

/-- `Pallet::check_message`: the message must be non-empty, the channel list
non-empty, and every channel well-formed per `checkChannelsLoop`. -/
def Pallet.check_message (message : Bytes) (metadata : MessageMetadata) :
    Except PalletError Unit :=
  if message.isEmpty then .error .MessageMalformed
  else if metadata.channels.isEmpty then .error .MetadataMalformed
  else checkChannelsLoop metadata.channels.length metadata.channels

/-- `Except.toOption` (spelled out locally): the payload of a success. -/
def toOpt {ε α : Type} : Except ε α → Option α
  | .ok a => some a
  | .error _ => none

/-! ## The commitment digest as the spec's §4.5 wording prescribes

These definitions follow the words of the specification, to be compared
against `MessageMetadata.compute_root_hash` (the translation of the source):
a refinement claim. -/

/-- Spec §4.5: for each scalar field `f`, `h(f) = Hash(f ‖ secret_nonce)`. -/
def specFieldHash (f secretNonce : Bytes) : Bytes :=
  blake2s (f ++ secretNonce)

/-- Spec §4.5, as written: for the recipient collection, accumulate
`Hash(Hash(r ‖ secret_nonce))` for each recipient `r` in list order into a
running hash state, then finalize with one more update of `secret_nonce`. -/
def specRecipientsHash (recipients : List Nat) (secretNonce : Bytes) : Bytes :=
  blake2s ((recipients.map
    (fun r => blake2s (specFieldHash (pkBytes r) secretNonce))).flatten ++ secretNonce)

/-- The recipient-collection digest with the inner double hash removed:
accumulate `Hash(r ‖ secret_nonce)` for each recipient `r` in list order,
then finalize with one more update of `secret_nonce`.  This is what the
source computes. -/
def specRecipientsHashSingle (recipients : List Nat) (secretNonce : Bytes) : Bytes :=
  blake2s ((recipients.map
    (fun r => specFieldHash (pkBytes r) secretNonce)).flatten ++ secretNonce)

/-- Spec §4.5: for the message, accumulate `Hash(key ‖ secret_nonce)` then
`Hash(value ‖ secret_nonce)` for each entry in order into a running hash
state, finalized after one more update of `secret_nonce`. -/
def specEntriesHash (entries : List MessageEntry) (secretNonce : Bytes) : Bytes :=
  blake2s ((entries.map
    (fun e => specFieldHash e.key secretNonce ++ specFieldHash e.value secretNonce)).flatten
    ++ secretNonce)

/-- Spec §4.5, as written: final digest
`Hash(h(origin) ‖ h(public_nonce) ‖ h(secret_nonce) ‖ h(relay_pk) ‖
h(sender_pk) ‖ h(recipients) ‖ h(entries))`, with the recipient collection
double-hashed per the spec's wording. -/
def specRootHash (origin publicNonce : Bytes) (senderPk relayPk : Nat)
    (secretNonce : Bytes) (recipients : List Nat) (message : Message) : Bytes :=
  blake2s (specFieldHash origin secretNonce
    ++ specFieldHash publicNonce secretNonce
    ++ specFieldHash secretNonce secretNonce
    ++ specFieldHash (pkBytes relayPk) secretNonce
    ++ specFieldHash (pkBytes senderPk) secretNonce
    ++ specRecipientsHash recipients secretNonce
    ++ specEntriesHash message.entries secretNonce)

/-- The spec's §4.5 final digest with the recipient collection single-hashed
(see `specRecipientsHashSingle`). -/
def specRootHashSingle (origin publicNonce : Bytes) (senderPk relayPk : Nat)
    (secretNonce : Bytes) (recipients : List Nat) (message : Message) : Bytes :=
  blake2s (specFieldHash origin secretNonce
    ++ specFieldHash publicNonce secretNonce
    ++ specFieldHash secretNonce secretNonce
    ++ specFieldHash (pkBytes relayPk) secretNonce
    ++ specFieldHash (pkBytes senderPk) secretNonce
    ++ specRecipientsHashSingle recipients secretNonce
    ++ specEntriesHash message.entries secretNonce)

/-! ## Helper lemmas -/

/-- Opening a sealed box with the matching nonce and shared secret recovers
the payload. -/
theorem boxOpen_boxSeal (data nonce : Bytes) (pk sk : Nat) :
    boxOpen (boxSeal data nonce pk sk) nonce pk sk = some data := by
  simp [boxSeal, boxOpen, List.take_left, List.drop_left]

/-- Two Diffie-Hellman agreements against the same broker key coincide
exactly when the outer keys coincide. -/
theorem dhShared_cancel (a b c : Nat) : dhShared a c = dhShared c b ↔ a = b := by
  simp only [dhShared, Prod.mk.injEq]
  omega

/-- The shared secret is symmetric in its two arguments. -/
theorem dhShared_comm (a b : Nat) : dhShared a b = dhShared b a := by
  simp only [dhShared, Prod.mk.injEq]
  omega

/-- Opening a sealed box under a different key pair against the same broker
fails. -/
theorem boxOpen_boxSeal_ne (data nonce nonce' : Bytes) (p brokerSk sk : Nat)
    (h : p ≠ sk) :
    boxOpen (boxSeal data nonce p brokerSk) nonce' (publicKeyOf brokerSk) sk = none := by
  simp only [boxSeal, boxOpen, publicKeyOf]
  rw [if_neg]
  intro hcond
  exact h ((dhShared_cancel p sk brokerSk).mp hcond.1)

/-- Collecting a mapped list in which every element succeeds yields the map
of the successes. -/
theorem collectE_map_ok {ε α β : Type} (l : List α) (f : α → Except ε β) (g : α → β)
    (h : ∀ a ∈ l, f a = .ok (g a)) :
    collectE (l.map f) = .ok (l.map g) := by
  induction l with
  | nil => rfl
  | cons a rest ih =>
    simp only [List.map_cons]
    rw [h a (List.mem_cons_self a rest)]
    simp only [collectE]
    rw [ih (fun x hx => h x (List.mem_cons_of_mem a hx))]

/-- A collected list succeeds exactly when every element succeeds. -/
theorem collectE_ok_iff {ε α : Type} (l : List (Except ε α)) :
    (∃ ys, collectE l = .ok ys) ↔ ∀ x ∈ l, ∃ y, x = .ok y := by
  induction l with
  | nil => simp [collectE]
  | cons a rest ih =>
    constructor
    · rintro ⟨ys, hys⟩ x hx
      match a, hys with
      | .error e, hys => simp [collectE] at hys
      | .ok v, hys =>
        rcases List.mem_cons.mp hx with hxa | hxr
        · exact ⟨v, hxa⟩
        · simp only [collectE] at hys
          rcases hrest : collectE rest with e | tail
          · rw [hrest] at hys; exact absurd hys (by simp)
          · exact ih.mp ⟨tail, hrest⟩ x hxr
    · intro h
      obtain ⟨v, hv⟩ := h a (List.mem_cons_self a rest)
      obtain ⟨tail, htail⟩ := ih.mpr (fun x hx => h x (List.mem_cons_of_mem a hx))
      subst hv
      exact ⟨v :: tail, by simp [collectE, htail]⟩

/-- The channel built by `new_encrypted` for participant `p` over a given
participant list. -/
def builtChannel (parties : List Nat) (publicNonce secretNonce : Bytes)
    (brokerSk p : Nat) : Channel :=
  Channel.mk (boxSeal secretNonce publicNonce p brokerSk)
    (parties.map (fun q => boxSeal (pkBytes q) secretNonce p brokerSk))

/-- With both nonces of the fixed width, `new_encrypted` succeeds and its
result has the literal shape built from `builtChannel` and
`compute_root_hash`. -/
theorem new_encrypted_ok (origin publicNonce : Bytes) (senderPk : Nat)
    (recipients : List Nat) (message : Message) (secretNonce : Bytes) (brokerSk : Nat)
    (hpn : publicNonce.length = nonceLen) (hsn : secretNonce.length = nonceLen) :
    MessageMetadata.new_encrypted origin publicNonce senderPk recipients message
        secretNonce brokerSk
      = .ok (⟨publicNonce, publicKeyOf brokerSk,
              MessageMetadata.compute_root_hash origin publicNonce senderPk
                (publicKeyOf brokerSk) secretNonce recipients message,
              (senderPk :: recipients).map
                (builtChannel (senderPk :: recipients) publicNonce secretNonce brokerSk)⟩,
            secretNonce) := by
  simp only [MessageMetadata.new_encrypted]
  rw [collectE_map_ok (senderPk :: recipients) _
      (builtChannel (senderPk :: recipients) publicNonce secretNonce brokerSk)]
  · simp [hpn, publicKeyOf]
  · intro p _
    rw [show nolikEncrypt secretNonce publicNonce p brokerSk
        = .ok (boxSeal secretNonce publicNonce p brokerSk) by simp [nolikEncrypt, hpn]]
    rw [collectE_map_ok (senderPk :: recipients) _
        (fun q => boxSeal (pkBytes q) secretNonce p brokerSk)]
    · rfl
    · intro q _
      simp [nolikEncrypt, hsn]

/-- Opening a sealed box under agreeing shared secrets recovers the payload. -/
theorem boxOpen_boxSeal_agree (data nonce : Bytes) (pk sk pk' sk' : Nat)
    (h : dhShared pk sk = dhShared pk' sk') :
    boxOpen (boxSeal data nonce pk sk) nonce pk' sk' = some data := by
  simp [boxSeal, boxOpen, ← h, List.take_left, List.drop_left]

/-- Opening a sealed box under disagreeing shared secrets fails, whatever
the nonces. -/
theorem boxOpen_boxSeal_disagree (data nonce nonce' : Bytes) (pk sk pk' sk' : Nat)
    (h : dhShared pk sk ≠ dhShared pk' sk') :
    boxOpen (boxSeal data nonce pk sk) nonce' pk' sk' = none := by
  simp only [boxSeal, boxOpen]
  rw [if_neg]
  intro hc
  exact h hc.1

/-- The nolik cypher opens a box sealed to this very key pair. -/
theorem nolikDecrypt_boxSeal_self (data nonce : Bytes) (b sk : Nat)
    (hn : nonce.length = nonceLen) :
    nolikDecrypt (boxSeal data nonce sk b) nonce (publicKeyOf b) sk = .ok data := by
  unfold nolikDecrypt
  rw [if_pos hn, boxOpen_boxSeal_agree data nonce sk b (publicKeyOf b) sk
    (by rw [publicKeyOf, dhShared_comm])]

/-- The nolik cypher refuses a box sealed to a different key pair. -/
theorem nolikDecrypt_boxSeal_other (data nonce nonce' : Bytes) (p b sk : Nat)
    (hp : p ≠ sk) (hn : nonce'.length = nonceLen) :
    nolikDecrypt (boxSeal data nonce p b) nonce' (publicKeyOf b) sk
      = .error (.DecryptionFailed (publicKeyOf b)) := by
  unfold nolikDecrypt
  rw [if_pos hn, boxOpen_boxSeal_disagree data nonce nonce' p b (publicKeyOf b) sk
    (fun hc => hp ((dhShared_cancel p sk b).mp hc))]

/-- Scanning the channels built for a participant list: exactly the channels
of the occurrences of the scanning key open, and each opens to the plaintext
secret nonce and the full participant list in order. -/
theorem decryptChannels_built (parties : List Nat) (l : List Nat)
    (publicNonce secretNonce : Bytes) (brokerSk sk : Nat)
    (hpn : publicNonce.length = nonceLen) (hsn : secretNonce.length = nonceLen) :
    decryptChannels publicNonce (publicKeyOf brokerSk) sk
        (l.map (builtChannel parties publicNonce secretNonce brokerSk))
      = .ok ((l.filter (fun q => q == sk)).map
          (fun _ => Channel.mk secretNonce (parties.map pkBytes))) := by
  induction l with
  | nil => rfl
  | cons p rest ih =>
    simp only [List.map_cons, List.filter_cons]
    by_cases hp : p = sk
    · subst hp
      simp only [decryptChannels, builtChannel,
        nolikDecrypt_boxSeal_self secretNonce publicNonce brokerSk p hpn, List.map_map,
        Function.comp_def]
      rw [collectE_map_ok parties _ pkBytes
        (fun q _ => nolikDecrypt_boxSeal_self (pkBytes q) secretNonce brokerSk p hsn)]
      rw [ih]
      simp
    · simp only [decryptChannels, builtChannel,
        nolikDecrypt_boxSeal_other secretNonce publicNonce publicNonce p brokerSk sk hp hpn]
      rw [ih]
      simp [hp]

/-- When the channel scan succeeds, it returns exactly one decrypted channel
per input channel whose encrypted secret nonce opens under the key. -/
theorem decryptChannels_length (publicNonce : Bytes) (brokerPk sk : Nat)
    (l : List Channel) (chs : List Channel)
    (h : decryptChannels publicNonce brokerPk sk l = .ok chs) :
    chs.length
      = l.countP (fun ch => (toOpt (nolikDecrypt ch.nonce publicNonce brokerPk sk)).isSome) := by
  induction l generalizing chs with
  | nil =>
    simp only [decryptChannels] at h
    cases h
    rfl
  | cons ch rest ih =>
    rcases hn : nolikDecrypt ch.nonce publicNonce brokerPk sk with e | nb
    · simp only [decryptChannels, hn] at h
      rw [List.countP_cons_of_neg _ _ (by simp [toOpt, hn])]
      exact ih chs h
    · rcases hps : collectE (ch.parties.map (fun p => nolikDecrypt p nb brokerPk sk)) with e | ps
      · simp only [decryptChannels, hn, hps] at h
        exact absurd h (by simp)
      · rcases hrest : decryptChannels publicNonce brokerPk sk rest with e | restChs
        · simp only [decryptChannels, hn, hps, hrest] at h
          exact absurd h (by simp)
        · simp only [decryptChannels, hn, hps, hrest, Except.ok.injEq] at h
          subst h
          rw [List.countP_cons_of_pos _ _ (by simp [toOpt, hn])]
          simp [ih restChs hrest]

/-- The scan makes at most one secret-nonce open attempt per channel. -/
theorem decryptAttempts_le (publicNonce : Bytes) (brokerPk sk : Nat) (l : List Channel) :
    decryptAttempts publicNonce brokerPk sk l ≤ l.length := by
  induction l with
  | nil => simp [decryptAttempts]
  | cons ch rest ih =>
    rcases hn : nolikDecrypt ch.nonce publicNonce brokerPk sk with e | nb
    · simp only [decryptAttempts, hn, List.length_cons]
      omega
    · rcases hps : collectE (ch.parties.map (fun p => nolikDecrypt p nb brokerPk sk)) with e | ps
      · simp only [decryptAttempts, hn, hps, List.length_cons]
        omega
      · simp only [decryptAttempts, hn, hps, List.length_cons]
        omega

/-- A fold that appends one block per element is the flattening of the
blocks. -/
theorem foldl_append_flatten {α : Type} (f : α → Bytes) (l : List α) (acc : Bytes) :
    l.foldl (fun st a => st ++ f a) acc = acc ++ (l.map f).flatten := by
  induction l generalizing acc with
  | nil => simp
  | cons a rest ih => simp [ih, List.append_assoc]

/-- A fold that appends two blocks per element is the flattening of the
concatenated blocks. -/
theorem foldl_append2_flatten {α : Type} (f g : α → Bytes) (l : List α) (acc : Bytes) :
    l.foldl (fun st a => st ++ f a ++ g a) acc
      = acc ++ (l.map (fun a => f a ++ g a)).flatten := by
  induction l generalizing acc with
  | nil => simp
  | cons a rest ih =>
    simp only [List.foldl_cons, List.map_cons, List.flatten_cons]
    rw [ih]
    simp [List.append_assoc]

/-- The source's commitment digest coincides with the spec's §4.5 digest
once the recipient collection is single-hashed. -/
theorem compute_root_hash_eq_single (origin publicNonce : Bytes) (senderPk brokerPk : Nat)
    (secretNonce : Bytes) (recipients : List Nat) (message : Message) :
    MessageMetadata.compute_root_hash origin publicNonce senderPk brokerPk secretNonce
        recipients message
      = specRootHashSingle origin publicNonce senderPk brokerPk secretNonce
          recipients message := by
  simp only [MessageMetadata.compute_root_hash, specRootHashSingle,
    specRecipientsHashSingle, specEntriesHash, specFieldHash,
    MessageMetadata.hash_with_nonce, foldl_append_flatten, foldl_append2_flatten,
    List.nil_append]

/-- The entries fold of the commitment digest depends only on the keys and
values of the entries, never on their kind tags. -/
theorem entries_fold_kind_free (secretNonce : Bytes) (l₁ l₂ : List MessageEntry)
    (h : l₁.map (fun e => (e.key, e.value)) = l₂.map (fun e => (e.key, e.value))) :
    ∀ acc : Bytes,
      l₁.foldl (fun st e => st ++ MessageMetadata.hash_with_nonce e.key secretNonce
          ++ MessageMetadata.hash_with_nonce e.value secretNonce) acc
        = l₂.foldl (fun st e => st ++ MessageMetadata.hash_with_nonce e.key secretNonce
            ++ MessageMetadata.hash_with_nonce e.value secretNonce) acc := by
  induction l₁ generalizing l₂ with
  | nil =>
    cases l₂ with
    | nil => intro acc; rfl
    | cons b l => exact absurd h (by simp)
  | cons a l₁' ih =>
    cases l₂ with
    | nil => exact absurd h (by simp)
    | cons b l₂' =>
      simp only [List.map_cons, List.cons.injEq, Prod.mk.injEq] at h
      intro acc
      simp only [List.foldl_cons, h.1.1, h.1.2]
      exact ih l₂' h.2 _

/-! ## Concrete inputs used by the witnesses and counterexamples -/

/-- A concrete origin identifier. -/
def wOrigin : Bytes := [7]

/-- A concrete public nonce of the fixed width. -/
def wPn : Bytes := List.replicate nonceLen 0

/-- A concrete secret nonce of the fixed width. -/
def wSn : Bytes := List.replicate nonceLen 1

/-- A concrete one-entry message. -/
def wMsg : Message := ⟨[⟨[10], [11], 0⟩]⟩

/-- The envelope built from the concrete inputs: sender key pair `1`, one
recipient key pair `2`, broker secret key `5`. -/
def wEnv : MessageMetadata × Bytes :=
  match MessageMetadata.new_encrypted wOrigin wPn 1 [2] wMsg wSn 5 with
  | .ok p => p
  | .error _ => (⟨[], 0, [], []⟩, [])

/-! ## The claims -/

/-- Claim C1: envelope round-trip — for every origin, public nonce of the
fixed width, sender key pair, recipient list, message, and the generated
secret nonce and broker key, if `new_encrypted` returns an envelope and a
secret nonce, then every participant `p` of `[sender_pk] ++ recipients`
decrypts the envelope with their own secret key successfully, and every
recovered channel carries exactly that secret nonce together with the
participant list `[sender_pk] ++ recipients` in the original order. -/
theorem c1_envelope_round_trip (origin publicNonce : Bytes) (senderPk : Nat)
    (recipients : List Nat) (message : Message) (secretNonce : Bytes) (brokerSk p : Nat)
    (md : MessageMetadata) (sn : Bytes)
    (hpn : publicNonce.length = nonceLen) (hsn : secretNonce.length = nonceLen)
    (hp : p ∈ senderPk :: recipients)
    (henc : MessageMetadata.new_encrypted origin publicNonce senderPk recipients message
        secretNonce brokerSk = .ok (md, sn)) :
    ∃ md', MessageMetadata.decrypt md p = .ok md' ∧ md'.channels ≠ [] ∧
      ∀ ch ∈ md'.channels, ch.nonce = sn
        ∧ ch.parties = (senderPk :: recipients).map pkBytes := by
  rw [new_encrypted_ok origin publicNonce senderPk recipients message secretNonce brokerSk
    hpn hsn] at henc
  simp only [Except.ok.injEq, Prod.mk.injEq] at henc
  obtain ⟨hmd, hsneq⟩ := henc
  subst hmd
  subst hsneq
  simp only [MessageMetadata.decrypt,
    decryptChannels_built (senderPk :: recipients) (senderPk :: recipients)
      publicNonce secretNonce brokerSk p hpn hsn]
  refine ⟨_, rfl, ?_, ?_⟩
  · intro hempty
    rw [List.map_eq_nil_iff, List.filter_eq_nil_iff] at hempty
    exact hempty p hp (by simp)
  · intro ch hch
    obtain ⟨q, hq, rfl⟩ := List.mem_map.mp hch
    exact ⟨rfl, rfl⟩

/-- Claim C1 witness: the round-trip at the concrete inputs, opened by the
recipient whose key pair is `2`. -/
theorem c1_envelope_round_trip_witness :
    ∃ md', MessageMetadata.decrypt wEnv.1 2 = .ok md' ∧ md'.channels ≠ [] ∧
      ∀ ch ∈ md'.channels, ch.nonce = wEnv.2
        ∧ ch.parties = ([1, 2] : List Nat).map pkBytes :=
  c1_envelope_round_trip wOrigin wPn 1 [2] wMsg wSn 5 2 wEnv.1 wEnv.2
    (by decide) (by decide) (by decide) rfl

/-- Claim C4: channel construction — every envelope returned by
`new_encrypted` has one channel per participant `p` of
`[sender_pk] ++ recipients`, in order, whose encrypted secret nonce is
`Box.seal(secret_nonce, public_nonce, p, relay_sk)` and whose participant
entries are `Box.seal(participant_list[i], secret_nonce, p, relay_sk)` for
every index `i`. -/
theorem c4_channel_construction (origin publicNonce : Bytes) (senderPk : Nat)
    (recipients : List Nat) (message : Message) (secretNonce : Bytes) (brokerSk : Nat)
    (md : MessageMetadata) (sn : Bytes)
    (hpn : publicNonce.length = nonceLen) (hsn : secretNonce.length = nonceLen)
    (henc : MessageMetadata.new_encrypted origin publicNonce senderPk recipients message
        secretNonce brokerSk = .ok (md, sn)) :
    md.channels = (senderPk :: recipients).map (fun p =>
      Channel.mk (boxSeal secretNonce publicNonce p brokerSk)
        ((senderPk :: recipients).map
          (fun q => boxSeal (pkBytes q) secretNonce p brokerSk))) := by
  rw [new_encrypted_ok origin publicNonce senderPk recipients message secretNonce brokerSk
    hpn hsn] at henc
  simp only [Except.ok.injEq, Prod.mk.injEq] at henc
  obtain ⟨hmd, -⟩ := henc
  subst hmd
  rfl

/-- Claim C4 witness: the channel shape at the concrete inputs. -/
theorem c4_channel_construction_witness :
    wEnv.1.channels = ([1, 2] : List Nat).map (fun p =>
      Channel.mk (boxSeal wSn wPn p 5)
        (([1, 2] : List Nat).map (fun q => boxSeal (pkBytes q) wSn p 5))) :=
  c4_channel_construction wOrigin wPn 1 [2] wMsg wSn 5 wEnv.1 wEnv.2
    (by decide) (by decide) rfl

/-- A message entry encrypted and then decrypted under the same nonce and
key-pair arguments is recovered. -/
theorem entry_round_trip (e : MessageEntry) (nonce : Bytes) (pk sk : Nat) :
    MessageEntry.decrypt (MessageEntry.encrypt e nonce pk sk) nonce pk sk = .ok e := by
  simp only [MessageEntry.encrypt, MessageEntry.decrypt, Bytes.encrypt, Bytes.decrypt,
    boxOpen_boxSeal]

/-- Claim C5: message round-trip — for all messages, nonces, and key
arguments, `decrypt(encrypt(M, nonce, pk, sk), nonce, pk, sk) == M` with
the same `(pk, sk)` passed to both sides (the box shared secret of the pair
is the same on both calls). -/
theorem c5_message_round_trip (m : Message) (nonce : Bytes) (pk sk : Nat) :
    Message.decrypt (Message.encrypt m nonce pk sk) nonce pk sk = .ok m := by
  simp only [Message.encrypt, Message.decrypt, List.map_map, Function.comp_def]
  rw [collectE_map_ok m.entries _ id (fun e _ => entry_round_trip e nonce pk sk)]
  simp

/-- Claim C2 counterexample: at concrete inputs with one recipient, the
envelope is built, yet its hash field differs from the digest prescribed by
the spec's §4.5 wording (which double-hashes each recipient before
accumulating it): the source accumulates the single `Hash(r ‖ secret_nonce)`. -/
theorem c2_commitment_counterexample :
    toOpt (MessageMetadata.new_encrypted wOrigin wPn 1 [2] wMsg wSn 5) = some wEnv
      ∧ wEnv.1.hash ≠ specRootHash wOrigin wPn 1 (publicKeyOf 5) wSn [2] wMsg := by
  decide

/-- Claim C2 as amended: the hash field of the envelope produced by
`new_encrypted` equals the §4.5 digest with the recipient collection
accumulating the single `Hash(r ‖ secret_nonce)` per recipient (instead of
`Hash(Hash(r ‖ secret_nonce))`), everything else as the spec states it. -/
theorem c2_commitment_amended (origin publicNonce : Bytes) (senderPk : Nat)
    (recipients : List Nat) (message : Message) (secretNonce : Bytes) (brokerSk : Nat)
    (md : MessageMetadata) (sn : Bytes)
    (hpn : publicNonce.length = nonceLen) (hsn : secretNonce.length = nonceLen)
    (henc : MessageMetadata.new_encrypted origin publicNonce senderPk recipients message
        secretNonce brokerSk = .ok (md, sn)) :
    md.hash = specRootHashSingle origin publicNonce senderPk (publicKeyOf brokerSk)
        secretNonce recipients message := by
  rw [new_encrypted_ok origin publicNonce senderPk recipients message secretNonce brokerSk
    hpn hsn] at henc
  simp only [Except.ok.injEq, Prod.mk.injEq] at henc
  obtain ⟨hmd, -⟩ := henc
  subst hmd
  exact compute_root_hash_eq_single origin publicNonce senderPk (publicKeyOf brokerSk)
    secretNonce recipients message

/-- Claim C2 witness: the amended digest equation at the concrete inputs. -/
theorem c2_commitment_amended_witness :
    wEnv.1.hash = specRootHashSingle wOrigin wPn 1 (publicKeyOf 5) wSn [2] wMsg :=
  c2_commitment_amended wOrigin wPn 1 [2] wMsg wSn 5 wEnv.1 wEnv.2
    (by decide) (by decide) rfl

/-- The envelope built with the sender also listed as a recipient: the
participant list is `[1, 1]`. -/
def c3Env : MessageMetadata × Bytes :=
  match MessageMetadata.new_encrypted wOrigin wPn 1 [1] wMsg wSn 5 with
  | .ok p => p
  | .error _ => (⟨[], 0, [], []⟩, [])

/-- The result of the sender scanning that envelope. -/
def c3Dec : MessageMetadata :=
  match MessageMetadata.decrypt c3Env.1 1 with
  | .ok m => m
  | .error _ => ⟨[], 0, [], []⟩

/-- Claim C3 counterexample: `decrypt` does not always return exactly one
recovered pair or an empty result — on the envelope built with the sender
key pair `1` also listed as the recipient, the sender's scan succeeds with
two recovered (secret nonce, participant list) pairs. -/
theorem c3_scanner_counterexample :
    toOpt (MessageMetadata.new_encrypted wOrigin wPn 1 [1] wMsg wSn 5) = some c3Env
      ∧ toOpt (MessageMetadata.decrypt c3Env.1 1) = some c3Dec
      ∧ c3Dec.channels.length = 2 := by
  decide

/-- Claim C3 as amended: when the scan succeeds it returns exactly one
recovered pair per channel whose encrypted secret nonce opens under the key
(so exactly one pair or an empty result whenever at most one channel opens
for the key, e.g. for an envelope whose participant list names the key at
most once); it never exposes a partial success, and it performs at most
`len(channels)` attempts to open an encrypted secret nonce. -/
theorem c3_scanner_amended (md : MessageMetadata) (sk : Nat) :
    (∀ md', MessageMetadata.decrypt md sk = .ok md' →
      md'.channels.length = md.channels.countP
        (fun ch => (toOpt (nolikDecrypt ch.nonce md.nonce md.broker sk)).isSome))
    ∧ decryptAttempts md.nonce md.broker sk md.channels ≤ md.channels.length := by
  constructor
  · intro md' h
    rcases hdc : decryptChannels md.nonce md.broker sk md.channels with e | chs
    · simp only [MessageMetadata.decrypt, hdc] at h
      exact absurd h (by simp)
    · simp only [MessageMetadata.decrypt, hdc, Except.ok.injEq] at h
      subst h
      exact decryptChannels_length md.nonce md.broker sk md.channels chs hdc
  · exact decryptAttempts_le md.nonce md.broker sk md.channels

/-- Claim C3 witness: the amended statement at the concrete duplicated
envelope scanned by the sender. -/
theorem c3_scanner_amended_witness :
    c3Dec.channels.length = c3Env.1.channels.countP
        (fun ch => (toOpt (nolikDecrypt ch.nonce c3Env.1.nonce c3Env.1.broker 1)).isSome)
      ∧ decryptAttempts c3Env.1.nonce c3Env.1.broker 1 c3Env.1.channels
          ≤ c3Env.1.channels.length :=
  ⟨(c3_scanner_amended c3Env.1 1).1 c3Dec rfl, (c3_scanner_amended c3Env.1 1).2⟩

/-- Claim C6: the entry kind tag is excluded from the commitment — two
messages with the same entry keys and values in the same order and count,
whatever their kind tags, yield the identical `compute_root_hash` digest on
identical remaining inputs. -/
theorem c6_kind_excluded (origin publicNonce : Bytes) (senderPk brokerPk : Nat)
    (secretNonce : Bytes) (recipients : List Nat) (m₁ m₂ : Message)
    (h : m₁.entries.map (fun e => (e.key, e.value))
      = m₂.entries.map (fun e => (e.key, e.value))) :
    MessageMetadata.compute_root_hash origin publicNonce senderPk brokerPk secretNonce
        recipients m₁
      = MessageMetadata.compute_root_hash origin publicNonce senderPk brokerPk secretNonce
          recipients m₂ := by
  simp only [MessageMetadata.compute_root_hash]
  rw [entries_fold_kind_free secretNonce m₁.entries m₂.entries h []]

/-- A message equal to the concrete witness message except for its entry
kind tag. -/
def wMsgKind : Message := ⟨[⟨[10], [11], 3⟩]⟩

/-- Claim C6 witness: the digest coincidence at concrete messages differing
only in the kind tag. -/
theorem c6_kind_excluded_witness :
    MessageMetadata.compute_root_hash wOrigin wPn 1 (publicKeyOf 5) wSn [2] wMsg
      = MessageMetadata.compute_root_hash wOrigin wPn 1 (publicKeyOf 5) wSn [2] wMsgKind :=
  c6_kind_excluded wOrigin wPn 1 (publicKeyOf 5) wSn [2] wMsg wMsgKind (by decide)

/-- An entry decrypts exactly when its key and its value both open. -/
theorem entry_decrypt_ok_iff (e : MessageEntry) (nonce : Bytes) (pk sk : Nat) :
    (∃ de, MessageEntry.decrypt e nonce pk sk = .ok de)
      ↔ (∃ k, Bytes.decrypt e.key nonce pk sk = .ok k)
        ∧ (∃ v, Bytes.decrypt e.value nonce pk sk = .ok v) := by
  unfold MessageEntry.decrypt
  rcases hk : Bytes.decrypt e.key nonce pk sk with ek | k
  · simp [hk]
  · rcases hv : Bytes.decrypt e.value nonce pk sk with ev | v
    · simp [hk, hv]
    · simp [hk, hv]

/-- Claim C7: message decryption is all-or-nothing — `Message.decrypt`
returns a success exactly when every entry's key and value open; if any
single entry fails, the whole call fails and no partially decrypted message
is produced. -/
theorem c7_all_or_nothing (m : Message) (nonce : Bytes) (pk sk : Nat) :
    (∃ dm, Message.decrypt m nonce pk sk = .ok dm)
      ↔ ∀ e ∈ m.entries, (∃ k, Bytes.decrypt e.key nonce pk sk = .ok k)
          ∧ (∃ v, Bytes.decrypt e.value nonce pk sk = .ok v) := by
  have h1 : (∃ dm, Message.decrypt m nonce pk sk = .ok dm)
      ↔ ∃ ys, collectE (m.entries.map (fun e => e.decrypt nonce pk sk)) = .ok ys := by
    rcases hc : collectE (m.entries.map (fun e => e.decrypt nonce pk sk)) with e | ys
    · simp [Message.decrypt, hc]
    · simp [Message.decrypt, hc]
  rw [h1, collectE_ok_iff]
  constructor
  · intro h e he
    exact (entry_decrypt_ok_iff e nonce pk sk).mp
      (h _ (List.mem_map_of_mem (fun e => e.decrypt nonce pk sk) he))
  · intro h x hx
    obtain ⟨e, he, rfl⟩ := List.mem_map.mp hx
    exact (entry_decrypt_ok_iff e nonce pk sk).mpr (h e he)

/-- Claim C8: non-participant exclusion — for every envelope produced by
`new_encrypted` and every secret key whose key pair is not in the
participant list, `decrypt` succeeds with an empty channel list (an empty
result, not an error), every other field unchanged. -/
theorem c8_non_participant (origin publicNonce : Bytes) (senderPk : Nat)
    (recipients : List Nat) (message : Message) (secretNonce : Bytes) (brokerSk skx : Nat)
    (md : MessageMetadata) (sn : Bytes)
    (hpn : publicNonce.length = nonceLen) (hsn : secretNonce.length = nonceLen)
    (henc : MessageMetadata.new_encrypted origin publicNonce senderPk recipients message
        secretNonce brokerSk = .ok (md, sn))
    (hx : skx ∉ senderPk :: recipients) :
    MessageMetadata.decrypt md skx = .ok ⟨md.nonce, md.broker, md.hash, []⟩ := by
  rw [new_encrypted_ok origin publicNonce senderPk recipients message secretNonce brokerSk
    hpn hsn] at henc
  simp only [Except.ok.injEq, Prod.mk.injEq] at henc
  obtain ⟨hmd, -⟩ := henc
  subst hmd
  have hfil : (senderPk :: recipients).filter (fun q => q == skx) = [] := by
    rw [List.filter_eq_nil_iff]
    intro q hq
    simp only [beq_iff_eq]
    exact fun h => hx (h ▸ hq)
  simp only [MessageMetadata.decrypt,
    decryptChannels_built (senderPk :: recipients) (senderPk :: recipients)
      publicNonce secretNonce brokerSk skx hpn hsn, hfil]
  rfl

/-- Claim C8 witness: the key pair `9`, not a participant of the concrete
envelope, scans it to an empty channel list. -/
theorem c8_non_participant_witness :
    MessageMetadata.decrypt wEnv.1 9 = .ok ⟨wEnv.1.nonce, wEnv.1.broker, wEnv.1.hash, []⟩ :=
  c8_non_participant wOrigin wPn 1 [2] wMsg wSn 5 9 wEnv.1 wEnv.2
    (by decide) (by decide) rfl (by decide)

/-- A channel list passing the pallet loop has every channel's parties
length equal to the channel count it was checked against. -/
theorem checkChannelsLoop_ok (n : Nat) (l : List Channel)
    (h : checkChannelsLoop n l = .ok ()) :
    ∀ ch ∈ l, ch.parties.length = n := by
  induction l with
  | nil => intro ch hch; exact absurd hch (by simp)
  | cons c rest ih =>
    rcases hb1 : (c.nonce.isEmpty || c.parties.isEmpty || c.parties.length != n) with _ | _
    · rcases hb2 : c.parties.any List.isEmpty with _ | _
      · simp only [checkChannelsLoop, hb1, hb2, Bool.false_eq_true, if_false] at h
        intro ch hch
        rcases List.mem_cons.mp hch with rfl | hmem
        · simp only [Bool.or_eq_false_iff, bne_eq_false_iff_eq] at hb1
          exact hb1.2
        · exact ih h ch hmem
      · simp only [checkChannelsLoop, hb1, hb2] at h
        exact absurd h (by simp)
    · simp only [checkChannelsLoop, hb1] at h
      exact absurd h (by simp)

/-- A channel list containing a channel whose parties length differs from
the checked count is rejected by the pallet loop with `MetadataMalformed`. -/
theorem checkChannelsLoop_bad (n : Nat) (l : List Channel)
    (h : ∃ ch ∈ l, ch.parties.length ≠ n) :
    checkChannelsLoop n l = .error .MetadataMalformed := by
  induction l with
  | nil => obtain ⟨ch, hch, -⟩ := h; exact absurd hch (by simp)
  | cons c rest ih =>
    obtain ⟨ch, hch, hlen⟩ := h
    rcases List.mem_cons.mp hch with rfl | hmem
    · have hb1 : (ch.nonce.isEmpty || ch.parties.isEmpty || ch.parties.length != n) = true := by
        simp [hlen]
      simp [checkChannelsLoop, hb1]
    · rcases hb1 : (c.nonce.isEmpty || c.parties.isEmpty || c.parties.length != n) with _ | _
      · rcases hb2 : c.parties.any List.isEmpty with _ | _
        · simp only [checkChannelsLoop, hb1, hb2, Bool.false_eq_true, if_false]
          exact ih ⟨ch, hmem, hlen⟩
        · simp [checkChannelsLoop, hb1, hb2]
      · simp [checkChannelsLoop, hb1]

/-- Claim C9: length invariant I1 — every envelope produced by
`new_encrypted` has `1 + len(recipients)` channels, each channel's
encrypted participant list of that same length; and the on-ledger
`check_message` accepts a metadata only if every channel's parties length
equals the number of channels, rejecting with `MetadataMalformed` (given a
non-empty message, so that the metadata check is reached) otherwise. -/
theorem c9_length_invariant (origin publicNonce : Bytes) (senderPk : Nat)
    (recipients : List Nat) (message : Message) (secretNonce : Bytes) (brokerSk : Nat)
    (md : MessageMetadata) (sn : Bytes) (msg : Bytes) (meta : MessageMetadata)
    (hpn : publicNonce.length = nonceLen) (hsn : secretNonce.length = nonceLen) :
    (MessageMetadata.new_encrypted origin publicNonce senderPk recipients message
        secretNonce brokerSk = .ok (md, sn) →
      md.channels.length = 1 + recipients.length
        ∧ ∀ ch ∈ md.channels, ch.parties.length = 1 + recipients.length)
    ∧ (Pallet.check_message msg meta = .ok () →
        ∀ ch ∈ meta.channels, ch.parties.length = meta.channels.length)
    ∧ (msg ≠ [] → (∃ ch ∈ meta.channels, ch.parties.length ≠ meta.channels.length) →
        Pallet.check_message msg meta = .error .MetadataMalformed) := by
  refine ⟨?_, ?_, ?_⟩
  · intro henc
    rw [new_encrypted_ok origin publicNonce senderPk recipients message secretNonce brokerSk
      hpn hsn] at henc
    simp only [Except.ok.injEq, Prod.mk.injEq] at henc
    obtain ⟨hmd, -⟩ := henc
    subst hmd
    constructor
    · simp [Nat.add_comm]
    · intro ch hch
      obtain ⟨q, hq, rfl⟩ := List.mem_map.mp hch
      simp [builtChannel, Nat.add_comm]
  · intro hok
    rcases hm : msg.isEmpty with _ | _
    · rcases hc : meta.channels.isEmpty with _ | _
      · simp only [Pallet.check_message, hm, hc, Bool.false_eq_true, if_false] at hok
        exact checkChannelsLoop_ok meta.channels.length meta.channels hok
      · simp only [Pallet.check_message, hm, hc] at hok
        exact absurd hok (by simp)
    · simp only [Pallet.check_message, hm] at hok
      exact absurd hok (by simp)
  · intro hmsg hbad
    have hm : msg.isEmpty = false := by
      rcases msg with _ | ⟨b, bs⟩
      · exact absurd rfl hmsg
      · rfl
    obtain ⟨ch, hch, hlen⟩ := hbad
    have hc : meta.channels.isEmpty = false := by
      rcases hcc : meta.channels with _ | _
      · rw [hcc] at hch; exact absurd hch (by simp)
      · rfl
    simp only [Pallet.check_message, hm, hc, Bool.false_eq_true, if_false]
    exact checkChannelsLoop_bad meta.channels.length meta.channels ⟨ch, hch, hlen⟩

/-- A metadata whose single channel lists two parties, violating I1. -/
def c9BadMeta : MessageMetadata :=
  ⟨wPn, 5, [], [⟨[1], [[2], [3]]⟩]⟩

/-- Claim C9 witness: the invariant at the concrete envelope, and the
pallet check at a concrete violating metadata. -/
theorem c9_length_invariant_witness :
    (MessageMetadata.new_encrypted wOrigin wPn 1 [2] wMsg wSn 5 = .ok (wEnv.1, wEnv.2) →
      wEnv.1.channels.length = 1 + ([2] : List Nat).length
        ∧ ∀ ch ∈ wEnv.1.channels, ch.parties.length = 1 + ([2] : List Nat).length)
    ∧ (Pallet.check_message [4] c9BadMeta = .ok () →
        ∀ ch ∈ c9BadMeta.channels, ch.parties.length = c9BadMeta.channels.length)
    ∧ (([4] : Bytes) ≠ [] →
        (∃ ch ∈ c9BadMeta.channels, ch.parties.length ≠ c9BadMeta.channels.length) →
        Pallet.check_message [4] c9BadMeta = .error .MetadataMalformed) :=
  c9_length_invariant wOrigin wPn 1 [2] wMsg wSn 5 wEnv.1 wEnv.2 [4] c9BadMeta
    (by decide) (by decide)

/-- Claim C10: `new_encrypted` either returns the (envelope, secret nonce)
pair or fails with `InvalidNonce` — no other error kind — and whenever the
supplied public nonce has the fixed nonce width the error branch is
unreachable and the call returns a success (the secret nonce, generated by
`SalsaBox::generate_nonce`, always has the fixed width). -/
theorem c10_failure_mode (origin publicNonce : Bytes) (senderPk : Nat)
    (recipients : List Nat) (message : Message) (secretNonce : Bytes) (brokerSk : Nat)
    (hsn : secretNonce.length = nonceLen) :
    ((∃ r, MessageMetadata.new_encrypted origin publicNonce senderPk recipients message
          secretNonce brokerSk = .ok r)
      ∨ MessageMetadata.new_encrypted origin publicNonce senderPk recipients message
          secretNonce brokerSk = .error (.InvalidNonce publicNonce))
    ∧ (publicNonce.length = nonceLen →
        ∃ r, MessageMetadata.new_encrypted origin publicNonce senderPk recipients message
          secretNonce brokerSk = .ok r) := by
  by_cases hpn : publicNonce.length = nonceLen
  · exact ⟨Or.inl ⟨_, new_encrypted_ok origin publicNonce senderPk recipients message
        secretNonce brokerSk hpn hsn⟩,
      fun _ => ⟨_, new_encrypted_ok origin publicNonce senderPk recipients message
        secretNonce brokerSk hpn hsn⟩⟩
  · refine ⟨Or.inr ?_, fun h => absurd h hpn⟩
    simp only [MessageMetadata.new_encrypted, List.map_cons,
      show nolikEncrypt secretNonce publicNonce senderPk brokerSk
          = .error (.InvalidNonce publicNonce) from by simp [nolikEncrypt, hpn],
      collectE]

/-- Claim C10 witness: at the concrete inputs with the fixed-width public
nonce, the call returns a success. -/
theorem c10_failure_mode_witness :
    ((∃ r, MessageMetadata.new_encrypted wOrigin wPn 1 [2] wMsg wSn 5 = .ok r)
      ∨ MessageMetadata.new_encrypted wOrigin wPn 1 [2] wMsg wSn 5
          = .error (.InvalidNonce wPn))
    ∧ (wPn.length = nonceLen →
        ∃ r, MessageMetadata.new_encrypted wOrigin wPn 1 [2] wMsg wSn 5 = .ok r) :=
  c10_failure_mode wOrigin wPn 1 [2] wMsg wSn 5 (by decide)

end Nolik
